import Mathlib

/-!
Verification of the retrieval core of `faq-chatbot-rag/app.py`:
character chunking with overlap (`chunk_text`), index build over
embedded chunks (`build_index`), similarity retrieval (`retrieve`),
and the corpus cache.

Python strings are embedded as `List Char`; Python `int` as `Int`
(the chunker is called with arbitrary integer configuration, and the
loop variable `start` is an `int` that the source clamps at `0`).
Real-valued similarity scores are embedded as rationals `ℚ`; the
FAISS sentinel score used to pad short result lists (`-FLT_MAX`,
smaller than any attainable score) is embedded as `⊥ : WithBot ℚ`.
The embedding model is opaque: it is a parameter `emb : List Char → List ℚ`.
-/

/-- The whitespace set stripped by Python `str.strip()` (ASCII part):
space, tab, newline, carriage return, vertical tab, form feed. -/
def pyWs (c : Char) : Bool :=
  c = ' ' || c = '\t' || c = '\n' || c = '\x0d' || c = '\x0b' || c = '\x0c'

/-- Strip leading `pyWs` characters (Python `str.lstrip()`). -/
def lstripL (s : List Char) : List Char := s.dropWhile pyWs

/-- Strip trailing `pyWs` characters (Python `str.rstrip()`). -/
def rstripL (s : List Char) : List Char := (s.reverse.dropWhile pyWs).reverse

/-- Python `str.strip()`: drop leading and trailing whitespace. -/
def pyStrip (s : List Char) : List Char := rstripL (lstripL s)

/-- Normalize a Python slice endpoint of a length-`n` string: negative
indices count from the end, and both ends are clamped into `[0, n]`. -/
def pyIdx (n : Nat) (i : Int) : Nat :=
  if i < 0 then ((n : Int) + i).toNat else min i.toNat n

/-- Python slice `s[a:b]` (step 1). -/
def pySlice (s : List Char) (a b : Int) : List Char :=
  (s.drop (pyIdx s.length a)).take (pyIdx s.length b - pyIdx s.length a)

/-- Python single-element indexing `l[i]`: negative indices count from
the end; an index out of range raises, embedded as `none`. -/
def pyGet {α : Type} (l : List α) (i : Int) : Option α :=
  if h : 0 ≤ i ∧ i.toNat < l.length then some (l.get ⟨i.toNat, h.2⟩)
  else if h' : i < 0 ∧ 0 ≤ (l.length : Int) + i ∧ ((l.length : Int) + i).toNat < l.length then
    some (l.get ⟨((l.length : Int) + i).toNat, h'.2.2⟩)
  else none

/-- `text.strip().replace("\r", "")`: the normalization `chunk_text`
applies before scanning (app.py line 28). -/
def normalizeInput (text : List Char) : List Char :=
  (pyStrip text).filter (fun c => c ≠ '\x0d')

/-- The `while start < n` loop of `chunk_text` (app.py lines 35-44),
with explicit fuel: `none` means the fuel ran out, i.e. the Python
loop has not finished within that many iterations.  Each iteration
takes the window `[start, start+max_chars)` clamped to the text,
strips it, appends it if non-empty, stops if the window reached the
end, and otherwise advances `start` to `end - overlap` clamped at 0. -/
def chunkLoop (t : List Char) (maxChars overlap : Int) :
    Nat → Int → List (List Char) → Option (List (List Char))
  | 0, _, _ => none
  | fuel+1, start, acc =>
    if start < (t.length : Int) then
      let e : Int := min (start + maxChars) (t.length : Int)
      let c := pyStrip (pySlice t start e)
      let acc' := if c = [] then acc else acc ++ [c]
      if e = (t.length : Int) then some acc'
      else chunkLoop t maxChars overlap fuel (max (e - overlap) 0) acc'
    else some acc

/-- `chunk_text(text, max_chars, overlap)` (app.py lines 23-45).
The loop is run with fuel `|t| + 1`, which is proved sufficient for
every configuration with `max_chars > overlap >= 0`
(`chunk_text_terminates`); `none` therefore means the source loop
diverges (or at least does not finish within a number of iterations
that bounds every terminating run). -/
def chunk_text (text : List Char) (maxChars overlap : Int) : Option (List (List Char)) :=
  let t := normalizeInput text
  if t = [] then some []
  else chunkLoop t maxChars overlap (t.length + 1) 0 []

/-- `chunk_text(part, max_chars=900, overlap=120)` as called from
`build_index` (app.py line 72); total because that configuration is
valid. -/
def chunkD (part : List Char) : List (List Char) :=
  (chunk_text part 900 120).getD []

/-- `b` begins with the pattern `pat` (character-by-character match). -/
def leadsWith : List Char → List Char → Bool
  | [], _ => true
  | _ :: _, [] => false
  | a :: as, b :: bs => a = b && leadsWith as bs

/-- Index of the first occurrence of `pat` in `s`, if any
(the search Python `str.split` performs left to right). -/
def findPat (pat : List Char) : List Char → Option Nat
  | [] => if leadsWith pat [] then some 0 else none
  | c :: rest =>
    if leadsWith pat (c :: rest) then some 0
    else (findPat pat rest).map (· + 1)

/-- Python `s.split(sep)` for a non-empty literal separator:
non-overlapping matches consumed left to right, empty parts kept.
Fuel-driven; fuel `|s| + 1` is always sufficient because each
consumed separator removes at least one character. -/
def splitOnAux (sep : List Char) : Nat → List Char → List (List Char)
  | 0, s => [s]
  | fuel+1, s =>
    match findPat sep s with
    | none => [s]
    | some i => s.take i :: splitOnAux sep fuel (s.drop (i + sep.length))

/-- Python `raw.split("\n\n")` (app.py line 70). -/
def splitOnBlank (raw : List Char) : List (List Char) :=
  splitOnAux ['\n', '\n'] (raw.length + 1) raw

/-- The chunks contributed by the parts of one page after the
blank-line split: `[p for p in parts if p.strip()]`, each part
re-chunked with the default configuration (app.py lines 70-72). -/
def partsChunks (parts : List (List Char)) : List (List Char) :=
  ((parts.filter (fun p => !(pyStrip p = [] : Bool))).map chunkD).flatten

/-- The chunks contributed by one page of extracted text
(app.py lines 68-72). -/
def pageChunks (raw : List Char) : List (List Char) :=
  partsChunks (splitOnBlank raw)

/-- `all_chunks` accumulated by `build_index` over every file and every
page (app.py lines 60-72).  A document set is a list of files, each a
list of page texts (PDF reading is external: `page.extract_text()`
hands this code one raw string per page). -/
def buildChunks (docs : List (List (List Char))) : List (List Char) :=
  (docs.map (fun pages => (pages.map pageChunks).flatten)).flatten

/-- Inner product of two embedding vectors (`faiss.IndexFlatIP`
scores); `zipWith` truncation never fires on well-formed inputs of
equal dimension. -/
def dot (a b : List ℚ) : ℚ := (List.zipWith (· * ·) a b).sum

/-- Result ordering of a FAISS inner-product search: higher score
first; among equal scores, lower row id first. -/
def resLE (a b : Int × WithBot ℚ) : Prop :=
  b.2 < a.2 ∨ (b.2 = a.2 ∧ a.1 ≤ b.1)

instance : DecidableRel resLE := fun a b =>
  decidable_of_iff (b.2 < a.2 ∨ (b.2 = a.2 ∧ a.1 ≤ b.1)) Iff.rfl

instance : IsTotal (Int × WithBot ℚ) resLE where
  total a b := by
    rcases lt_trichotomy a.2 b.2 with h | h | h
    · exact Or.inr (Or.inl h)
    · rcases Int.le_total a.1 b.1 with h1 | h1
      · exact Or.inl (Or.inr ⟨h.symm, h1⟩)
      · exact Or.inr (Or.inr ⟨h, h1⟩)
    · exact Or.inl (Or.inl h)

instance : IsTrans (Int × WithBot ℚ) resLE where
  trans a b c hab hbc := by
    rcases hab with h1 | ⟨h1, h1'⟩ <;> rcases hbc with h2 | ⟨h2, h2'⟩
    · exact Or.inl (lt_trans h2 h1)
    · exact Or.inl (h2 ▸ h1)
    · exact Or.inl (h1 ▸ h2)
    · exact Or.inr ⟨h2.trans h1, h1'.trans h2'⟩

/-- `index.search(qv, k)` for a `faiss.IndexFlatIP` holding the rows
of `vs` (app.py lines 80-81, 86), per the library's documented
semantics: exact inner products against every stored row, the `k`
best returned in descending score order with ties broken by ascending
row id, and — when fewer than `k` rows are stored — the result padded
to exactly `k` entries with id `-1` and a sentinel score smaller than
any attainable score (`-FLT_MAX`, embedded as `⊥`). -/
def faissSearch (vs : List (List ℚ)) (q : List ℚ) (k : Nat) : List (Int × WithBot ℚ) :=
  let scored : List (Int × WithBot ℚ) :=
    vs.enum.map (fun p => ((p.1 : Int), ((dot q p.2 : ℚ) : WithBot ℚ)))
  (List.insertionSort resLE scored).take k ++
    List.replicate (k - vs.length) ((-1 : Int), (⊥ : WithBot ℚ))

/-- `build_index(files)` (app.py lines 55-82) for an opaque
embedding function `emb`: chunk every page of every file, and if any
chunks were produced build a FAISS index over their embeddings,
returning `(index, chunks)`; with no chunks return `(None, [])`. -/
def build_index (emb : List Char → List ℚ) (docs : List (List (List Char))) :
    Option (List (List ℚ)) × List (List Char) :=
  let all_chunks := buildChunks docs
  if all_chunks = [] then (none, [])
  else (some (all_chunks.map emb), all_chunks)

/-- `retrieve(index, chunks, query, k)` (app.py lines 84-89) with the
query already embedded to `qv`.  A `None` index has no `.search`
method (the call raises), embedded as `none`; an out-of-range row id
in the FAISS output would likewise raise in `chunks[i]`. -/
def retrieve (index : Option (List (List ℚ))) (chunks : List (List Char))
    (qv : List ℚ) (k : Nat) : Option (List (List Char × WithBot ℚ)) :=
  match index with
  | none => none
  | some vs =>
    (faissSearch vs qv k).mapM (fun p => (pyGet chunks p.1).map (fun c => (c, p.2)))

/-- Modelled from the spec: the corpus cache (spec §4.5).  The cache
around `build_index` is Streamlit's `st.cache_data` decorator
(app.py lines 54, 121-123), whose implementation is outside this
repository; the spec describes it as a single-slot cache keyed by the
identity of the uploaded document set, with `clear()` dropping the
slot.  The slot holds the last `(key, value)` pair. -/
structure CorpusCache (κ ν : Type) where
  slot : Option (κ × ν)

/-- Modelled from the spec: `get_or_build(key, build_fn)` returns the
cached value when the slot matches `key`, and otherwise invokes
`build_fn`, storing and returning the result (spec §4.5).  The third
component counts how many times `build_fn` was invoked by this call
(0 or 1), so that invocation counts are part of the state-machine
model. -/
def get_or_build {κ ν : Type} [DecidableEq κ] (st : CorpusCache κ ν)
    (key : κ) (build_fn : κ → ν) : ν × CorpusCache κ ν × Nat :=
  match st.slot with
  | some (k, v) =>
    if k = key then (v, st, 0)
    else (build_fn key, ⟨some (key, build_fn key)⟩, 1)
  | none => (build_fn key, ⟨some (key, build_fn key)⟩, 1)

/-- Modelled from the spec: `clear()` drops the cached Corpus
(spec §4.5; the `st.cache_data.clear()` call at app.py line 122). -/
def cacheClear {κ ν : Type} (_ : CorpusCache κ ν) : CorpusCache κ ν := ⟨none⟩

/-- A cache state is coherent with `build_fn` when its slot, if
filled, holds exactly the value `build_fn` produces for its key: the
invariant every state reachable from the empty cache satisfies. -/
def cacheCoherent {κ ν : Type} (st : CorpusCache κ ν) (build_fn : κ → ν) : Prop :=
  ∀ k v, st.slot = some (k, v) → v = build_fn k

/-- Concatenation of consecutive chunks' non-overlapping portions:
the first chunk whole, then every later chunk minus its first
`overlap` characters (the part it shares with its predecessor). -/
def reconstruct (ov : Int) : List (List Char) → List Char
  | [] => []
  | c :: cs => c ++ (cs.map (fun d => d.drop ov.toNat)).flatten

-- Sanity checks of the embedding on concrete inputs.
example : chunk_text [] 900 120 = some [] := by decide
example : chunk_text [' ', '\t'] 900 120 = some [] := by decide
example : chunk_text ['a', 'b'] 900 120 = some [['a', 'b']] := by decide
example : chunk_text [' ', 'a', 'b', ' '] 900 120 = some [['a', 'b']] := by decide
example : chunk_text ['a', 'b', 'c', 'd'] 3 1 = some [['a', 'b', 'c'], ['c', 'd']] := by decide
example : chunk_text ['a', 'b', ' ', 'c', 'd'] 3 0 = some [['a', 'b'], ['c', 'd']] := by decide

example : splitOnBlank ['a', '\n', '\n', 'b'] = [['a'], ['b']] := by decide
example : splitOnBlank ['a', '\n', '\n', '\n', 'b'] = [['a'], ['\n', 'b']] := by decide
example : splitOnBlank [] = [[]] := by decide

example :
    faissSearch [[1, 0], [0, 1]] [1, 0] 2 =
      [((0 : Int), ((1 : ℚ) : WithBot ℚ)), ((1 : Int), ((0 : ℚ) : WithBot ℚ))] := by
  simp [faissSearch, dot, List.insertionSort, List.orderedInsert, resLE]

example :
    faissSearch [[1]] [1] 3 =
      [((0 : Int), ((1 : ℚ) : WithBot ℚ)), ((-1 : Int), (⊥ : WithBot ℚ)),
        ((-1 : Int), (⊥ : WithBot ℚ))] := by
  simp [faissSearch, dot, List.insertionSort, List.orderedInsert, resLE, List.replicate]

example :
    retrieve (some [[1]]) [['a']] [1] 2 =
      some [(['a'], ((1 : ℚ) : WithBot ℚ)), (['a'], (⊥ : WithBot ℚ))] := by
  simp [retrieve, faissSearch, dot, List.insertionSort, List.orderedInsert, resLE,
    List.replicate, pyGet, List.mapM, List.mapM.loop]

/-! ## Chunker lemmas -/

/-- The loop accumulator only prepends: running with accumulator
`acc` yields `acc ++` the run from the empty accumulator. -/
theorem chunkLoop_append (t : List Char) (m ov : Int) : ∀ (fuel : Nat) (start : Int)
    (acc : List (List Char)),
    chunkLoop t m ov fuel start acc = (chunkLoop t m ov fuel start []).map (acc ++ ·) := by
  intro fuel
  induction fuel with
  | zero => intro start acc; rfl
  | succ n ih =>
    intro start acc
    simp only [chunkLoop]
    by_cases hg : start < (t.length : Int)
    · simp only [if_pos hg]
      by_cases hc : pyStrip (pySlice t start (min (start + m) (t.length : Int))) = []
      · simp only [if_pos hc]
        by_cases he : min (start + m) (t.length : Int) = (t.length : Int)
        · simp [he]
        · simp only [if_neg he]
          exact ih _ acc
      · simp only [if_neg hc]
        by_cases he : min (start + m) (t.length : Int) = (t.length : Int)
        · simp [he]
        · simp only [if_neg he]
          rw [ih _ (acc ++ [pyStrip (pySlice t start (min (start + m) (t.length : Int)))]),
            ih _ ([] ++ [pyStrip (pySlice t start (min (start + m) (t.length : Int)))]),
            Option.map_map]
          congr 1
          funext x
          simp
    · simp [if_neg hg]

/-- With a valid configuration (`overlap >= 0`, `max_chars > overlap`)
fuel exceeding the unscanned length suffices: the loop terminates
because each non-final iteration advances `start` by
`max_chars - overlap >= 1`. -/
theorem chunkLoop_isSome (t : List Char) (m ov : Int) (hov : 0 ≤ ov) (hm : ov < m) :
    ∀ (fuel : Nat) (start : Int) (acc : List (List Char)),
      0 ≤ start → (t.length : Int) < start + fuel → 1 ≤ fuel →
      (chunkLoop t m ov fuel start acc).isSome := by
  intro fuel
  induction fuel with
  | zero => intro start acc _ _ h1; omega
  | succ n ih =>
    intro start acc h0 hlt _
    simp only [chunkLoop]
    by_cases hg : start < (t.length : Int)
    · simp only [if_pos hg]
      by_cases he : min (start + m) (t.length : Int) = (t.length : Int)
      · simp [he]
      · simp only [if_neg he]
        have hmin : min (start + m) (t.length : Int) = start + m := by
          rcases le_total (start + m) (t.length : Int) with h | h
          · exact min_eq_left h
          · exact absurd (min_eq_right h) he
        rw [hmin]
        have hmax : max (start + m - ov) 0 = start + m - ov := max_eq_left (by omega)
        rw [hmax]
        have hn : (t.length : Int) < start + m - ov + n := by
          have h1 : start + m ≤ (t.length : Int) := by
            rcases le_total (start + m) (t.length : Int) with h | h
            · exact h
            · rw [min_eq_right h] at hmin; omega
          push_cast at hlt
          have h2 : 1 ≤ n := by omega
          omega
        exact ih (start + m - ov) _ (by omega) (by push_cast; omega) (by push_cast at hlt; omega)
    · simp [if_neg hg]

/-- C2: for every text and every configuration with
`max_chars > overlap >= 0`, the chunker's left-to-right scan
terminates: run with fuel `|text| + 1` the loop finishes (each
iteration either reaches the end of the text and stops, or advances
`start` by `max_chars - overlap >= 1`, clamped to never go negative),
returning a finite chunk sequence. -/
theorem chunk_text_terminates (text : List Char) (m ov : Int)
    (hov : 0 ≤ ov) (hm : ov < m) : (chunk_text text m ov).isSome := by
  simp only [chunk_text]
  split_ifs with h
  · rfl
  · rw [Option.isSome_iff_exists]
    have := chunkLoop_isSome (normalizeInput text) m ov hov hm
      ((normalizeInput text).length + 1) 0 [] le_rfl (by omega) (by omega)
    rw [Option.isSome_iff_exists] at this
    exact this

/-- Witness for `chunk_text_terminates` at a concrete input. -/
theorem chunk_text_terminates_witness :
    (0 : Int) ≤ 1 ∧ (1 : Int) < 3 ∧ (chunk_text ['a', 'b', 'c', 'd'] 3 1).isSome :=
  ⟨by decide, by decide, chunk_text_terminates ['a', 'b', 'c', 'd'] 3 1 (by decide) (by decide)⟩

/-- C1: the source performs no configuration validation.  At
`max_chars = 1 = overlap` on the text `"ab"` the loop advances
`start` from `0` back to `max(1 - 1, 0) = 0` forever (appending the
chunk `"a"` each time), so no amount of fuel finishes it:
`chunk_text` silently loops instead of failing with
`InvalidConfiguration` before doing any work. -/
theorem chunk_text_invalid_config_diverges :
    (∀ (fuel : Nat) (acc : List (List Char)),
        chunkLoop ['a', 'b'] 1 1 fuel 0 acc = none) ∧
      chunk_text ['a', 'b'] 1 1 = none := by
  have key : ∀ (fuel : Nat) (acc : List (List Char)),
      chunkLoop ['a', 'b'] 1 1 fuel 0 acc = none := by
    intro fuel
    induction fuel with
    | zero => intro acc; rfl
    | succ n ih =>
      intro acc
      simp only [chunkLoop]
      norm_num [pySlice, pyIdx, pyStrip, lstripL, rstripL, pyWs]
      exact ih _
  exact ⟨key, key 3 []⟩

/-- `dropWhile` is idempotent. -/
theorem dropWhile_dropWhile (p : Char → Bool) (l : List Char) :
    (l.dropWhile p).dropWhile p = l.dropWhile p := by
  induction l with
  | nil => rfl
  | cons c cs ih =>
    by_cases h : p c
    · simp only [List.dropWhile_cons, if_pos h]; exact ih
    · simp [List.dropWhile_cons, h]

/-- Right-stripping removes a (whitespace) tail: the stripped list is
an initial segment of the original. -/
theorem rstripL_eq_append (l : List Char) : ∃ w, l = rstripL l ++ w :=
  ⟨(l.reverse.takeWhile pyWs).reverse, by
    conv_lhs => rw [← l.reverse_reverse,
      ← List.takeWhile_append_dropWhile (p := pyWs) (l := l.reverse)]
    rw [List.reverse_append]
    rfl⟩

/-- A list already left-stripped stays left-stripped after
right-stripping. -/
theorem dropWhile_rstripL (l : List Char) (h : l.dropWhile pyWs = l) :
    (rstripL l).dropWhile pyWs = rstripL l := by
  obtain ⟨w, hw⟩ := rstripL_eq_append l
  cases hz : rstripL l with
  | nil => rfl
  | cons c z =>
    have hc : ¬(pyWs c = true) := by
      intro hp
      rw [hz] at hw
      rw [hw, List.cons_append, List.dropWhile_cons, if_pos hp] at h
      have hlen := congrArg List.length h
      rw [List.length_cons] at hlen
      have hle := ((z ++ w).dropWhile_suffix pyWs).length_le
      omega
    rw [List.dropWhile_cons, if_neg hc]

/-- `rstripL` is idempotent. -/
theorem rstripL_idem (l : List Char) : rstripL (rstripL l) = rstripL l := by
  unfold rstripL
  rw [List.reverse_reverse, dropWhile_dropWhile]

/-- `str.strip()` is idempotent: its output has no leading or
trailing whitespace. -/
theorem pyStrip_idem (s : List Char) : pyStrip (pyStrip s) = pyStrip s := by
  show rstripL (lstripL (rstripL (lstripL s))) = rstripL (lstripL s)
  have h2 : lstripL (rstripL (lstripL s)) = rstripL (lstripL s) :=
    dropWhile_rstripL _ (dropWhile_dropWhile pyWs s)
  rw [h2, rstripL_idem]

/-- Stripping never lengthens a list. -/
theorem pyStrip_length_le (s : List Char) : (pyStrip s).length ≤ s.length := by
  have h1 : (lstripL s).length ≤ s.length := (s.dropWhile_suffix pyWs).length_le
  have h2 : (rstripL (lstripL s)).length ≤ (lstripL s).length := by
    unfold rstripL
    rw [List.length_reverse]
    calc ((lstripL s).reverse.dropWhile pyWs).length
        ≤ (lstripL s).reverse.length := ((lstripL s).reverse.dropWhile_suffix pyWs).length_le
      _ = (lstripL s).length := List.length_reverse _
  exact le_trans h2 h1

/-- A slice `s[a:b]` with `0 <= a`, `0 <= b` has at most `b - a`
characters. -/
theorem pySlice_length_le (t : List Char) {a b m : Int}
    (ha : 0 ≤ a) (hb : 0 ≤ b) (hm : 0 ≤ m) (hab : b - a ≤ m) :
    ((pySlice t a b).length : Int) ≤ m := by
  simp only [pySlice, pyIdx, if_neg (not_lt.mpr ha), if_neg (not_lt.mpr hb),
    List.length_take, List.length_drop]
  omega

/-- Loop invariant for C9: every chunk the loop ever appends is the
`strip` of a window of at most `max_chars` characters, hence
non-empty (it is only appended when non-empty), fully stripped, and
of length at most `max_chars`. -/
theorem chunkLoop_mem (t : List Char) (m ov : Int) (hm : 0 ≤ m) :
    ∀ (fuel : Nat) (start : Int) (acc cs : List (List Char)),
      0 ≤ start →
      (∀ c ∈ acc, c ≠ [] ∧ pyStrip c = c ∧ (c.length : Int) ≤ m) →
      chunkLoop t m ov fuel start acc = some cs →
      ∀ c ∈ cs, c ≠ [] ∧ pyStrip c = c ∧ (c.length : Int) ≤ m := by
  intro fuel
  induction fuel with
  | zero => intro start acc cs _ _ h; cases h
  | succ n ih =>
    intro start acc cs h0 hacc hrun
    simp only [chunkLoop] at hrun
    by_cases hg : start < (t.length : Int)
    · rw [if_pos hg] at hrun
      have hgood : ∀ c ∈ (if pyStrip (pySlice t start (min (start + m) (t.length : Int))) = []
          then acc
          else acc ++ [pyStrip (pySlice t start (min (start + m) (t.length : Int)))]),
          c ≠ [] ∧ pyStrip c = c ∧ (c.length : Int) ≤ m := by
        by_cases hc : pyStrip (pySlice t start (min (start + m) (t.length : Int))) = []
        · rw [if_pos hc]; exact hacc
        · rw [if_neg hc]
          intro c hcmem
          rcases List.mem_append.mp hcmem with h | h
          · exact hacc c h
          · have hceq : c = pyStrip (pySlice t start (min (start + m) (t.length : Int))) :=
              List.mem_singleton.mp h
            subst hceq
            refine ⟨hc, pyStrip_idem _, ?_⟩
            have h1 : ((pyStrip (pySlice t start (min (start + m) (t.length : Int)))).length : Int)
                ≤ ((pySlice t start (min (start + m) (t.length : Int))).length : Int) := by
              exact_mod_cast pyStrip_length_le _
            refine le_trans h1 (pySlice_length_le t h0 ?_ hm ?_)
            · exact le_min (by omega) (Int.natCast_nonneg _)
            · have := min_le_left (start + m) ((t.length : Nat) : Int)
              omega
      by_cases he : min (start + m) (t.length : Int) = (t.length : Int)
      · rw [if_pos he] at hrun
        cases hrun
        exact hgood
      · rw [if_neg he] at hrun
        exact ih _ _ _ (le_max_right _ _) hgood hrun
    · rw [if_neg hg] at hrun
      cases hrun
      exact hacc

/-- C9: under a valid configuration, every chunk `chunk_text`
returns is a non-empty string with no leading or trailing whitespace
(stripping it again changes nothing), and every chunk — the final
one included — has length at most `max_chars`. -/
theorem chunk_text_chunk_invariants (text : List Char) (m ov : Int) (cs : List (List Char))
    (hov : 0 ≤ ov) (hm : ov < m) (hrun : chunk_text text m ov = some cs) :
    ∀ c ∈ cs, c ≠ [] ∧ pyStrip c = c ∧ (c.length : Int) ≤ m := by
  simp only [chunk_text] at hrun
  split_ifs at hrun with h
  · cases hrun
    intro c hc
    cases hc
  · exact chunkLoop_mem _ m ov (by omega) _ 0 _ cs le_rfl (by intro c hc; cases hc) hrun

/-- Witness for `chunk_text_chunk_invariants` at a concrete input. -/
theorem chunk_text_chunk_invariants_witness :
    chunk_text [' ', 'a', 'b', ' '] 2 1 = some [['a', 'b']] ∧
      ∀ c ∈ [['a', 'b']], c ≠ [] ∧ pyStrip c = c ∧ (c.length : Int) ≤ 2 :=
  ⟨by decide, chunk_text_chunk_invariants [' ', 'a', 'b', ' '] 2 1 [['a', 'b']]
    (by decide) (by decide) (by decide)⟩

/-- `dropWhile` does nothing on a list without matching characters. -/
theorem dropWhile_of_forall_false (p : Char → Bool) (l : List Char)
    (h : ∀ c ∈ l, p c = false) : l.dropWhile p = l := by
  cases l with
  | nil => rfl
  | cons c cs =>
    rw [List.dropWhile_cons, if_neg (by simp [h c (List.mem_cons_self c cs)])]

/-- `strip` does nothing on a whitespace-free string. -/
theorem pyStrip_of_forall_false (l : List Char) (h : ∀ c ∈ l, pyWs c = false) :
    pyStrip l = l := by
  show rstripL (lstripL l) = l
  unfold lstripL rstripL
  rw [dropWhile_of_forall_false _ _ h,
    dropWhile_of_forall_false _ _ (fun c hc => h c (List.mem_reverse.mp hc)),
    List.reverse_reverse]

/-- A slice with in-range non-negative endpoints is a plain
take-after-drop. -/
theorem pySlice_eq (t : List Char) {a b : Int} (ha : 0 ≤ a) (han : a ≤ (t.length : Int))
    (hb : 0 ≤ b) (hbn : b ≤ (t.length : Int)) :
    pySlice t a b = (t.drop a.toNat).take (b.toNat - a.toNat) := by
  simp only [pySlice, pyIdx, if_neg (not_lt.mpr ha), if_neg (not_lt.mpr hb)]
  have h1 : min a.toNat t.length = a.toNat := min_eq_left (by omega)
  have h2 : min b.toNat t.length = b.toNat := min_eq_left (by omega)
  rw [h1, h2]

/-- A window and the remainder of the text tile the suffix the window
starts at. -/
theorem slice_tile (t : List Char) (a b : Nat) (hab : a ≤ b) :
    (t.drop a).take (b - a) ++ t.drop b = t.drop a := by
  have h : t.drop b = (t.drop a).drop (b - a) := by
    rw [List.drop_drop]
    congr 1
    omega
  rw [h, List.take_append_drop]

/-- Dropping `k` characters from a window shifts its start by `k`. -/
theorem slice_shift (t : List Char) (a b k : Nat) :
    ((t.drop a).take (b - a)).drop k = (t.drop (a + k)).take (b - a - k) := by
  rw [List.drop_take, List.drop_drop]

/-- Loop invariant for the reconstruction property on whitespace-free
text: starting at any in-range position, the loop returns chunks
whose first element is the window at `start` and whose
overlap-trimmed concatenation is exactly the unscanned suffix. -/
theorem chunkLoop_reconstruct (t : List Char) (m ov : Int)
    (hov : 0 ≤ ov) (hm : ov < m) (hws : ∀ c ∈ t, pyWs c = false) :
    ∀ (fuel : Nat) (start : Int), 0 ≤ start → start < (t.length : Int) →
      (t.length : Int) < start + fuel →
      ∃ cs, chunkLoop t m ov fuel start [] = some cs ∧
        reconstruct ov cs = t.drop start.toNat ∧
        (cs.map (fun d => d.drop ov.toNat)).flatten = t.drop (start + ov).toNat := by
  intro fuel
  induction fuel with
  | zero => intro start h0 hlt hfuel; omega
  | succ fl ih =>
    intro start h0 hlt hfuel
    have he1 : start < min (start + m) (t.length : Int) := lt_min (by omega) hlt
    have he2 : min (start + m) (t.length : Int) ≤ (t.length : Int) := min_le_right _ _
    have hbpos : (0 : Int) ≤ min (start + m) (t.length : Int) := le_trans h0 (le_of_lt he1)
    have hslice : pySlice t start (min (start + m) (t.length : Int)) =
        (t.drop start.toNat).take ((min (start + m) (t.length : Int)).toNat - start.toNat) :=
      pySlice_eq t h0 (by omega) hbpos he2
    have hsub : ∀ c ∈ pySlice t start (min (start + m) (t.length : Int)), pyWs c = false := by
      intro c hc
      apply hws
      have h1 : List.Sublist (pySlice t start (min (start + m) (t.length : Int))) t := by
        rw [hslice]
        exact (List.take_sublist _ _).trans (List.drop_sublist _ _)
      exact h1.subset hc
    have hstrip : pyStrip (pySlice t start (min (start + m) (t.length : Int))) =
        pySlice t start (min (start + m) (t.length : Int)) := pyStrip_of_forall_false _ hsub
    have hlen : (pySlice t start (min (start + m) (t.length : Int))).length =
        (min (start + m) (t.length : Int)).toNat - start.toNat := by
      rw [hslice, List.length_take, List.length_drop]
      omega
    have hneSlice : pySlice t start (min (start + m) (t.length : Int)) ≠ [] :=
      List.length_pos.mp (by rw [hlen]; omega)
    have hne : pyStrip (pySlice t start (min (start + m) (t.length : Int))) ≠ [] := by
      rw [hstrip]; exact hneSlice
    by_cases hend : min (start + m) (t.length : Int) = (t.length : Int)
    · refine ⟨[pySlice t start (min (start + m) (t.length : Int))], ?_, ?_, ?_⟩
      · simp only [chunkLoop, if_pos hlt]
        rw [hstrip, if_neg hneSlice, if_pos hend]
        rfl
      · show pySlice t start (min (start + m) (t.length : Int)) ++
          (([] : List (List Char)).map (fun d => d.drop ov.toNat)).flatten = t.drop start.toNat
        rw [hslice, hend]
        simp only [List.map_nil, List.flatten_nil, List.append_nil]
        exact List.take_of_length_le (by rw [List.length_drop]; omega)
      · show (pySlice t start (min (start + m) (t.length : Int))).drop ov.toNat ++
          (([] : List (List Char)).map (fun d => d.drop ov.toNat)).flatten =
            t.drop (start + ov).toNat
        rw [hslice, hend]
        simp only [List.map_nil, List.flatten_nil, List.append_nil]
        rw [slice_shift]
        rw [List.take_of_length_le (by rw [List.length_drop]; omega)]
        congr 1
        omega
    · have hlt2 : start + m < (t.length : Int) := by
        rcases lt_or_ge (start + m) (t.length : Int) with h | h
        · exact h
        · exact absurd (min_eq_right h) hend
      have hemin : min (start + m) (t.length : Int) = start + m := min_eq_left (by omega)
      have hs' : max (min (start + m) (t.length : Int) - ov) 0 = start + m - ov := by
        rw [hemin]; exact max_eq_left (by omega)
      obtain ⟨cs', hrun', hP', hQ'⟩ := ih (start + m - ov) (by omega) (by omega) (by omega)
      refine ⟨pySlice t start (min (start + m) (t.length : Int)) :: cs', ?_, ?_, ?_⟩
      · simp only [chunkLoop, if_pos hlt]
        rw [hstrip, if_neg hneSlice, if_neg hend, hs']
        rw [chunkLoop_append t m ov fl (start + m - ov)
          ([] ++ [pySlice t start (min (start + m) (t.length : Int))]), hrun']
        rfl
      · show pySlice t start (min (start + m) (t.length : Int)) ++
          (cs'.map (fun d => d.drop ov.toNat)).flatten = t.drop start.toNat
        rw [hQ']
        have harg : (start + m - ov + ov).toNat = (start + m).toNat := by
          congr 1
          omega
        rw [harg, hslice, hemin]
        exact slice_tile t start.toNat (start + m).toNat (by omega)
      · show (pySlice t start (min (start + m) (t.length : Int))).drop ov.toNat ++
          (cs'.map (fun d => d.drop ov.toNat)).flatten = t.drop (start + ov).toNat
        rw [hQ']
        have harg : (start + m - ov + ov).toNat = (start + m).toNat := by
          congr 1
          omega
        rw [harg, hslice, hemin, slice_shift]
        have hsub2 : (start + m).toNat - start.toNat - ov.toNat =
            (start + m).toNat - (start.toNat + ov.toNat) := by omega
        rw [hsub2]
        have hfin := slice_tile t (start.toNat + ov.toNat) (start + m).toNat (by omega)
        rw [hfin]
        congr 1
        omega

/-- C5 counterexample: per-window stripping loses interior whitespace
at window boundaries.  On `"ab cd"` with `max_chars = 3`,
`overlap = 0` the windows are `"ab "` and `"cd"`; the first is
stripped to `"ab"`, so concatenating the chunks' non-overlapping
portions yields `"abcd"`, not the trimmed original `"ab cd"`. -/
theorem chunk_reconstruct_counterexample :
    chunk_text ['a', 'b', ' ', 'c', 'd'] 3 0 = some [['a', 'b'], ['c', 'd']] ∧
      reconstruct 0 [['a', 'b'], ['c', 'd']] ≠ normalizeInput ['a', 'b', ' ', 'c', 'd'] :=
  ⟨by decide, by decide⟩

/-- C5 (amended): under a valid configuration every chunk — the last
one included — has length at most `max_chars`; and on whitespace-free
input (where per-window stripping is a no-op) concatenating
consecutive chunks' non-overlapping portions reconstructs the
original text exactly.  (On general input, per-window stripping can
drop whitespace at window boundaries: `chunk_reconstruct_counterexample`.) -/
theorem chunk_text_bounds_and_reconstruct (text : List Char) (m ov : Int)
    (cs : List (List Char)) (hov : 0 ≤ ov) (hm : ov < m)
    (hrun : chunk_text text m ov = some cs) :
    (∀ c ∈ cs, (c.length : Int) ≤ m) ∧
      ((∀ c ∈ text, pyWs c = false) → reconstruct ov cs = text) := by
  constructor
  · intro c hc
    exact (chunk_text_chunk_invariants text m ov cs hov hm hrun c hc).2.2
  · intro hws
    have hnorm : normalizeInput text = text := by
      unfold normalizeInput
      rw [pyStrip_of_forall_false _ hws]
      refine List.filter_eq_self.mpr fun c hc => ?_
      have h1 := hws c hc
      by_contra hbad
      have hc13 : c = '\x0d' := by simpa using hbad
      rw [hc13] at h1
      simp [pyWs] at h1
    simp only [chunk_text, hnorm] at hrun
    by_cases htz : text = []
    · rw [if_pos htz] at hrun
      cases hrun
      rw [htz]
      rfl
    · rw [if_neg htz] at hrun
      have hlen0 : 0 < text.length := List.length_pos.mpr htz
      obtain ⟨cs2, hrun2, hP, _⟩ := chunkLoop_reconstruct text m ov hov hm hws
        (text.length + 1) 0 le_rfl (by exact_mod_cast hlen0) (by push_cast; omega)
      rw [hrun2] at hrun
      cases hrun
      simpa using hP

/-- Witness for `chunk_text_bounds_and_reconstruct` at a concrete
input. -/
theorem chunk_text_bounds_and_reconstruct_witness :
    chunk_text ['a', 'b', 'c', 'd'] 3 1 = some [['a', 'b', 'c'], ['c', 'd']] ∧
      (∀ c ∈ [['a', 'b', 'c'], ['c', 'd']], (List.length c : Int) ≤ 3) ∧
      reconstruct 1 [['a', 'b', 'c'], ['c', 'd']] = ['a', 'b', 'c', 'd'] := by
  have h := chunk_text_bounds_and_reconstruct ['a', 'b', 'c', 'd'] 3 1
    [['a', 'b', 'c'], ['c', 'd']] (by decide) (by decide) (by decide)
  exact ⟨by decide, h.1, h.2 (by decide)⟩

/-- A whitespace-only part chunks to nothing: after the initial
`strip` the text is empty and `chunk_text` returns `[]`. -/
theorem chunkD_ws_only (p : List Char) (h : pyStrip p = []) : chunkD p = [] := by
  unfold chunkD chunk_text normalizeInput
  rw [h]
  rfl

/-- C10: during a build, each page is split on blank lines and every
whitespace-only part contributes no chunks — both because the
`if p.strip()` filter skips it and because `chunk_text` would return
`[]` for it anyway — so the built chunk sequence is unchanged by
inserting (or, read right to left, removing) a whitespace-only
section anywhere in a page's section list. -/
theorem blank_section_invariance :
    (∀ p : List Char, pyStrip p = [] → chunkD p = []) ∧
      (∀ parts : List (List Char), partsChunks parts = (parts.map chunkD).flatten) ∧
      (∀ (xs ys : List (List Char)) (w : List Char), pyStrip w = [] →
        partsChunks (xs ++ w :: ys) = partsChunks (xs ++ ys)) := by
  refine ⟨chunkD_ws_only, ?_, ?_⟩
  · intro parts
    induction parts with
    | nil => rfl
    | cons p ps ih =>
      by_cases hp : pyStrip p = []
      · simp only [partsChunks, List.filter_cons, List.map_cons, List.flatten_cons] at ih ⊢
        simp [hp, chunkD_ws_only p hp, ih]
      · simp only [partsChunks, List.filter_cons, List.map_cons, List.flatten_cons] at ih ⊢
        simp [hp, ih]
  · intro xs ys w hw
    simp only [partsChunks, List.filter_append, List.filter_cons]
    simp [hw]

/-- Witness for `blank_section_invariance` at concrete inputs. -/
theorem blank_section_invariance_witness :
    chunkD [' ', '\n'] = [] ∧
      partsChunks [['a'], [' ', '\n'], ['b']] = partsChunks [['a'], ['b']] :=
  ⟨blank_section_invariance.1 [' ', '\n'] (by decide),
    blank_section_invariance.2.2 [['a']] [['b']] [' ', '\n'] (by decide)⟩

/-- C7: a document set yielding no chunks builds an empty corpus with
no index — `build_index` returns `(None, [])` — and a query against
the missing index fails (the `None.search` attribute access raises,
embedded as `none`) rather than returning an empty-but-successful
result sequence. -/
theorem empty_corpus_query_fails (emb : List Char → List ℚ)
    (docs : List (List (List Char))) (h : buildChunks docs = []) :
    build_index emb docs = (none, []) ∧
      ∀ (chunks : List (List Char)) (qv : List ℚ) (k : Nat),
        retrieve none chunks qv k = none := by
  constructor
  · simp [build_index, h]
  · intro chunks qv k
    rfl

/-- Witness for `empty_corpus_query_fails` at a concrete input. -/
theorem empty_corpus_query_fails_witness :
    buildChunks [] = [] ∧ build_index (fun _ => []) [] = (none, []) ∧
      retrieve none [] [] 5 = none :=
  ⟨rfl, (empty_corpus_query_fails (fun _ => []) [] rfl).1,
    (empty_corpus_query_fails (fun _ => []) [] rfl).2 [] [] 5⟩

/-- C8: the corpus cache is observationally transparent and
memoizing.  For any cache state coherent with the (pure) build
function: `get_or_build` returns exactly the value an uncached
rebuild would produce (so downstream query results are unchanged),
preserves coherence, invokes the build function at most once, a
second call with the same key invokes it zero times, and a call
after `clear()` invokes it again. -/
theorem cache_transparent_and_single_build {κ ν : Type} [DecidableEq κ]
    (st : CorpusCache κ ν) (key : κ) (build_fn : κ → ν)
    (hco : cacheCoherent st build_fn) :
    (get_or_build st key build_fn).1 = build_fn key ∧
      cacheCoherent (get_or_build st key build_fn).2.1 build_fn ∧
      (get_or_build st key build_fn).2.2 ≤ 1 ∧
      (get_or_build (get_or_build st key build_fn).2.1 key build_fn).2.2 = 0 ∧
      (get_or_build (cacheClear st) key build_fn).2.2 = 1 := by
  rcases hslot : st.slot with _ | ⟨k, v⟩
  · obtain rfl : st = ⟨none⟩ := by cases st; cases hslot; rfl
    refine ⟨rfl, ?_, by simp [get_or_build], ?_, rfl⟩
    · intro k' v' h'
      simp only [get_or_build] at h'
      cases h'
      rfl
    · simp [get_or_build]
  · obtain rfl : st = ⟨some (k, v)⟩ := by cases st; cases hslot; rfl
    have hv : v = build_fn k := hco k v rfl
    by_cases hk : k = key
    · subst hk
      refine ⟨by simp [get_or_build, hv], ?_, by simp [get_or_build], ?_, rfl⟩
      · simpa [get_or_build] using hco
      · simp [get_or_build]
    · refine ⟨by simp [get_or_build, hk], ?_, by simp [get_or_build, hk], ?_, rfl⟩
      · intro k' v' h'
        simp only [get_or_build, if_neg hk] at h'
        cases h'
        rfl
      · simp [get_or_build, hk]

/-- Witness for `cache_transparent_and_single_build` at a concrete
cache. -/
theorem cache_transparent_witness :
    cacheCoherent (⟨none⟩ : CorpusCache Nat Nat) (fun k => k + 1) ∧
      (get_or_build (⟨none⟩ : CorpusCache Nat Nat) 0 (fun k => k + 1)).1 = 1 ∧
      (get_or_build (get_or_build (⟨none⟩ : CorpusCache Nat Nat) 0 (fun k => k + 1)).2.1 0
        (fun k => k + 1)).2.2 = 0 ∧
      (get_or_build (cacheClear (⟨none⟩ : CorpusCache Nat Nat)) 0 (fun k => k + 1)).2.2 = 1 := by
  have hco : cacheCoherent (⟨none⟩ : CorpusCache Nat Nat) (fun k => k + 1) := by
    intro k v h
    cases h
  have h := cache_transparent_and_single_build (⟨none⟩ : CorpusCache Nat Nat) 0
    (fun k => k + 1) hco
  exact ⟨hco, h.1, h.2.2.2.1, h.2.2.2.2⟩

/-! ## Vector lemmas -/

/-- A self inner product is non-negative (a sum of squares). -/
theorem dot_self_nonneg (a : List ℚ) : 0 ≤ dot a a := by
  induction a with
  | nil => exact le_refl 0
  | cons x xs ih =>
    simp only [dot, List.zipWith_cons_cons, List.sum_cons] at ih ⊢
    have := mul_self_nonneg x
    linarith

/-- Expansion of the self inner product of a difference (equal
dimensions). -/
theorem dot_sub_sub (a : List ℚ) : ∀ (b : List ℚ), a.length = b.length →
    dot (List.zipWith (· - ·) a b) (List.zipWith (· - ·) a b) =
      dot a a - 2 * dot a b + dot b b := by
  induction a with
  | nil =>
    intro b hb
    cases b with
    | nil => simp [dot]
    | cons y ys => simp at hb
  | cons x xs ih =>
    intro b hb
    cases b with
    | nil => simp at hb
    | cons y ys =>
      have h' : xs.length = ys.length := by simpa using hb
      simp only [dot, List.zipWith_cons_cons, List.sum_cons] at ih ⊢
      rw [ih ys h']
      ring

/-- A zero self inner product forces every component to vanish. -/
theorem dot_self_eq_zero (a : List ℚ) (h : dot a a = 0) : ∀ x ∈ a, x = 0 := by
  induction a with
  | nil => intro x hx; cases hx
  | cons x xs ih =>
    simp only [dot, List.zipWith_cons_cons, List.sum_cons] at h
    have h1 : 0 ≤ dot xs xs := dot_self_nonneg xs
    have h2 : 0 ≤ x * x := mul_self_nonneg x
    have hx0 : x * x = 0 := by
      simp only [dot] at h1
      linarith
    have hxs : dot xs xs = 0 := by
      simp only [dot] at h1 ⊢
      linarith
    intro y hy
    rcases List.mem_cons.mp hy with rfl | hy'
    · exact mul_self_eq_zero.mp hx0
    · exact ih hxs y hy'

/-- Lists of equal length with a vanishing componentwise difference
are equal. -/
theorem eq_of_sub_zero (a : List ℚ) : ∀ (b : List ℚ), a.length = b.length →
    (∀ x ∈ List.zipWith (· - ·) a b, x = 0) → a = b := by
  induction a with
  | nil =>
    intro b hb _
    cases b with
    | nil => rfl
    | cons y ys => simp at hb
  | cons x xs ih =>
    intro b hb hz
    cases b with
    | nil => simp at hb
    | cons y ys =>
      have h' : xs.length = ys.length := by simpa using hb
      simp only [List.zipWith_cons_cons] at hz
      have hx : x - y = 0 := hz _ (List.mem_cons_self _ _)
      have hxs : xs = ys := ih ys h' (fun z hzz => hz z (List.mem_cons_of_mem _ hzz))
      rw [hxs, sub_eq_zero.mp hx]

/-- Cauchy-Schwarz consequence for unit vectors: the inner product of
two unit vectors of equal dimension is at most `1`. -/
theorem dot_le_one (a b : List ℚ) (h : a.length = b.length)
    (ha : dot a a = 1) (hb : dot b b = 1) : dot a b ≤ 1 := by
  have h0 := dot_self_nonneg (List.zipWith (· - ·) a b)
  rw [dot_sub_sub a b h, ha, hb] at h0
  linarith

/-- Equality case: two unit vectors of equal dimension with inner
product `1` are equal. -/
theorem eq_of_dot_eq_one (a b : List ℚ) (h : a.length = b.length)
    (ha : dot a a = 1) (hb : dot b b = 1) (hd : dot a b = 1) : a = b := by
  have h0 : dot (List.zipWith (· - ·) a b) (List.zipWith (· - ·) a b) = 0 := by
    rw [dot_sub_sub a b h, ha, hb, hd]
    ring
  exact eq_of_sub_zero a b h (dot_self_eq_zero _ h0)

/-! ## FAISS search lemmas -/

/-- `mapM` over `Option` succeeds when every element maps
successfully. -/
theorem mapM_isSome_of_forall {α β : Type} (f : α → Option β) :
    ∀ l : List α, (∀ a ∈ l, (f a).isSome) → ∃ out, l.mapM f = some out := by
  intro l
  induction l with
  | nil => intro _; exact ⟨[], rfl⟩
  | cons x xs ih =>
    intro h
    obtain ⟨y, hy⟩ := Option.isSome_iff_exists.mp (h x (List.mem_cons_self _ _))
    obtain ⟨out, hout⟩ := ih (fun a ha => h a (List.mem_cons_of_mem _ ha))
    refine ⟨y :: out, ?_⟩
    rw [List.mapM_cons]
    show (f x).bind _ = _
    rw [hy, hout]
    rfl

/-- `mapM` over `Option` on a cons cell. -/
theorem mapM_cons_some {α β : Type} (f : α → Option β) (x : α) (xs : List α)
    (y : β) (out : List β) (hx : f x = some y) (hxs : xs.mapM f = some out) :
    (x :: xs).mapM f = some (y :: out) := by
  rw [List.mapM_cons]
  show (f x).bind _ = _
  rw [hx, hxs]
  rfl

/-- Python indexing at a non-negative in-range index. -/
theorem pyGet_ofNat {α : Type} (l : List α) (i : Nat) (h : i < l.length) :
    pyGet l (i : Int) = some (l.get ⟨i, h⟩) := by
  unfold pyGet
  rw [dif_pos ⟨Int.natCast_nonneg i, by simpa using h⟩]
  simp

/-- Python indexing at `-1` on a non-empty list succeeds (it returns
the last element). -/
theorem pyGet_neg_one_isSome {α : Type} (l : List α) (h : l ≠ []) :
    (pyGet l (-1)).isSome := by
  have hp : 0 < l.length := List.length_pos.mpr h
  unfold pyGet
  rw [dif_neg (by omega), dif_pos ⟨by omega, by omega, by omega⟩]
  rfl

/-- A reflexive relation holds pairwise on any `replicate`. -/
theorem pairwise_replicate_of_rel {α : Type} (R : α → α → Prop) (x : α) (hx : R x x) :
    ∀ n, List.Pairwise R (List.replicate n x) := by
  intro n
  induction n with
  | zero => exact List.Pairwise.nil
  | succ n ih =>
    rw [List.replicate_succ]
    exact List.Pairwise.cons (fun y hy => (List.eq_of_mem_replicate hy) ▸ hx) ih

/-- C4: the search result sequence is sorted by non-increasing score,
and whenever two entries have equal scores the earlier one carries
the lower (or equal) row id — the deterministic tie-break that makes
results reproducible across runs (the model is a pure function of its
inputs). -/
theorem faissSearch_sorted (vs : List (List ℚ)) (q : List ℚ) (k : Nat) :
    List.Pairwise (fun a b : Int × WithBot ℚ => b.2 ≤ a.2 ∧ (a.2 = b.2 → a.1 ≤ b.1))
      (faissSearch vs q k) := by
  have himp : ∀ a b : Int × WithBot ℚ, resLE a b → b.2 ≤ a.2 ∧ (a.2 = b.2 → a.1 ≤ b.1) := by
    intro a b hab
    rcases hab with h | ⟨h1, h2⟩
    · exact ⟨le_of_lt h, fun he => absurd (he ▸ h) (lt_irrefl _)⟩
    · exact ⟨le_of_eq h1, fun _ => h2⟩
  unfold faissSearch
  rw [List.pairwise_append]
  refine ⟨?_, ?_, ?_⟩
  · exact (List.Pairwise.sublist (List.take_sublist _ _)
      (List.sorted_insertionSort resLE _)).imp (fun h => himp _ _ h)
  · exact pairwise_replicate_of_rel _ _ ⟨le_refl _, fun _ => le_refl _⟩ _
  · intro a ha b hb
    have hbe : b = ((-1 : Int), (⊥ : WithBot ℚ)) := List.eq_of_mem_replicate hb
    subst hbe
    have ha' : a ∈ (vs.enum).map
        (fun p => ((p.1 : Int), ((dot q p.2 : ℚ) : WithBot ℚ))) :=
      (List.mem_insertionSort resLE).mp (List.mem_of_mem_take ha)
    obtain ⟨p, _, hpa⟩ := List.mem_map.mp ha'
    refine ⟨bot_le, fun he => ?_⟩
    rw [← hpa] at he
    exact absurd he (WithBot.coe_ne_bot)

/-- C3: with `k` larger than the number of stored rows the code does
not return just the `N` stored entries: FAISS pads the result to
exactly `k` entries with row id `-1` and a sentinel score, and
`chunks[-1]` silently resolves to the *last* stored chunk.  At one
stored chunk `"a"` and `k = 2` the result has two entries — the real
match and a duplicate of the last chunk with sentinel score — instead
of the single stored entry the claim requires. -/
theorem retrieve_pads_beyond_corpus :
    retrieve (some [[1]]) [['a']] [1] 2 =
      some [(['a'], ((1 : ℚ) : WithBot ℚ)), (['a'], (⊥ : WithBot ℚ))] ∧
      ¬∃ l, retrieve (some [[1]]) [['a']] [1] 2 = some l ∧ l.length = 1 := by
  have h : retrieve (some [[1]]) [['a']] [1] 2 =
      some [(['a'], ((1 : ℚ) : WithBot ℚ)), (['a'], (⊥ : WithBot ℚ))] := by
    simp [retrieve, faissSearch, dot, List.insertionSort, List.orderedInsert, resLE,
      List.replicate, pyGet, List.mapM, List.mapM.loop]
  refine ⟨h, ?_⟩
  rintro ⟨l, hl, hlen⟩
  rw [h] at hl
  cases hl
  simp at hlen

/-- Characterization of the scored list built by `faissSearch` over
the corpus vectors `cls.map emb`: its members are exactly the pairs
`(row index, inner product with the query)`. -/
theorem mem_scored_iff (cls : List (List Char)) (emb : List Char → List ℚ) (q : List ℚ)
    (x : Int × WithBot ℚ) :
    x ∈ ((cls.map emb).enum).map
        (fun p => ((p.1 : Int), ((dot q p.2 : ℚ) : WithBot ℚ))) ↔
      ∃ (i : Nat) (hi : i < cls.length),
        x = ((i : Int), ((dot q (emb (cls.get ⟨i, hi⟩)) : ℚ) : WithBot ℚ)) := by
  constructor
  · intro hx
    obtain ⟨p, hp, hpx⟩ := List.mem_map.mp hx
    obtain ⟨i, a, rfl⟩ : ∃ i a, p = (i, a) := ⟨p.1, p.2, rfl⟩
    have hmem := List.mem_enum_iff_getElem?.mp hp
    rw [List.getElem?_map] at hmem
    have hi : i < cls.length := by
      by_contra hge
      rw [List.getElem?_eq_none (by omega)] at hmem
      cases hmem
    rw [List.getElem?_eq_getElem hi] at hmem
    have ha : a = emb cls[i] := by
      have := Option.some_injective _ hmem
      exact this.symm
    refine ⟨i, hi, ?_⟩
    rw [← hpx, ha]
    rw [List.get_eq_getElem]
  · rintro ⟨i, hi, rfl⟩
    refine List.mem_map.mpr ⟨(i, emb (cls.get ⟨i, hi⟩)), ?_, rfl⟩
    refine List.mem_enum_iff_getElem?.mpr ?_
    rw [List.getElem?_map, List.getElem?_eq_getElem hi]
    rw [List.get_eq_getElem]
    rfl

/-- C6: round trip.  Build a corpus from a document set with an
embedding that yields unit vectors of a fixed dimension and separates
distinct chunk texts; then querying with the text of one of the
corpus's own chunks returns that chunk as the top result with score
exactly `1` (the model's rational stand-in for "close to 1.0"): its
self-similarity is `1`, no other row can score higher than `1` by
Cauchy-Schwarz, and equal-scoring rows carry the same embedding and
hence the same text. -/
theorem corpus_self_query_top (emb : List Char → List ℚ)
    (docs : List (List (List Char))) (vs : List (List ℚ)) (cs : List (List Char))
    (t : List Char) (k : Nat)
    (hb : build_index emb docs = (some vs, cs))
    (ht : t ∈ cs)
    (hunit : ∀ c ∈ cs, dot (emb c) (emb c) = 1)
    (hdim : ∀ c ∈ cs, (emb c).length = (emb t).length)
    (hinj : ∀ c ∈ cs, emb c = emb t → c = t)
    (hk : 1 ≤ k) :
    ∃ rest, retrieve (some vs) cs (emb t) k =
      some ((t, ((1 : ℚ) : WithBot ℚ)) :: rest) := by
  -- recover the corpus structure from the build
  have hvs : vs = cs.map emb := by
    simp only [build_index] at hb
    by_cases hempty : buildChunks docs = []
    · rw [if_pos hempty] at hb
      exact absurd (congrArg Prod.fst hb) (by simp)
    · rw [if_neg hempty] at hb
      have h1 := congrArg Prod.fst hb
      have h2 := congrArg Prod.snd hb
      simp only at h1 h2
      rw [← h2]
      exact (Option.some_injective _ h1).symm
  subst hvs
  set q := emb t with hq
  have hqq : dot q q = 1 := hunit t ht
  set scored := ((cs.map emb).enum).map
    (fun p => ((p.1 : Int), ((dot q p.2 : ℚ) : WithBot ℚ))) with hscored
  set sorted := List.insertionSort resLE scored with hsorteddef
  have hccs_ne : cs ≠ [] := fun h => by rw [h] at ht; cases ht
  have hsorted_len : sorted.length = cs.length := by
    rw [hsorteddef, (List.perm_insertionSort resLE scored).length_eq, hscored]
    simp
  obtain ⟨s0, srest, hs0⟩ := List.exists_cons_of_ne_nil
    (show sorted ≠ [] from fun h => by
      rw [h] at hsorted_len
      exact hccs_ne (List.length_eq_zero.mp hsorted_len.symm))
  have hsorted2 : List.Sorted resLE sorted := List.sorted_insertionSort resLE scored
  have hmax : ∀ y ∈ sorted, resLE s0 y := by
    intro y hy
    rw [hs0] at hy hsorted2
    rcases List.mem_cons.mp hy with rfl | hy'
    · exact Or.inr ⟨rfl, le_refl _⟩
    · exact (List.sorted_cons.mp hsorted2).1 y hy'
  have hscore_le : ∀ x ∈ scored, x.2 ≤ ((1 : ℚ) : WithBot ℚ) := by
    intro x hx
    obtain ⟨i, hi, rfl⟩ := (mem_scored_iff cs emb q x).mp hx
    show ((dot q (emb (cs.get ⟨i, hi⟩)) : ℚ) : WithBot ℚ) ≤ _
    rw [WithBot.coe_le_coe]
    exact dot_le_one q (emb (cs.get ⟨i, hi⟩))
      (hdim _ (List.get_mem cs i hi)).symm hqq (hunit _ (List.get_mem cs i hi))
  -- the self-match row
  obtain ⟨⟨j, hj⟩, hjt⟩ := List.mem_iff_get.mp ht
  have hjmem : ((j : Int), ((1 : ℚ) : WithBot ℚ)) ∈ scored := by
    have hm := (mem_scored_iff cs emb q _).mpr ⟨j, hj, rfl⟩
    rw [hjt, ← hq, hqq] at hm
    exact hm
  have hs0_mem_scored : s0 ∈ scored := by
    have : s0 ∈ sorted := by rw [hs0]; exact List.mem_cons_self _ _
    rw [hsorteddef] at this
    exact (List.mem_insertionSort resLE).mp this
  have hs0_score : s0.2 = ((1 : ℚ) : WithBot ℚ) := by
    refine le_antisymm (hscore_le s0 hs0_mem_scored) ?_
    have hjm : ((j : Int), ((1 : ℚ) : WithBot ℚ)) ∈ sorted := by
      rw [hsorteddef]
      exact (List.mem_insertionSort resLE).mpr hjmem
    rcases hmax _ hjm with h | ⟨h, _⟩
    · exact le_of_lt h
    · exact le_of_eq h
  -- identify the chunk at the top row
  obtain ⟨i0, hi0, hs0eq⟩ := (mem_scored_iff cs emb q s0).mp hs0_mem_scored
  have hdot1 : dot q (emb (cs.get ⟨i0, hi0⟩)) = 1 := by
    have h1 := hs0_score
    rw [hs0eq] at h1
    exact WithBot.coe_injective h1
  have hctext : cs.get ⟨i0, hi0⟩ = t := by
    refine hinj _ (List.get_mem cs i0 hi0) ?_
    exact (eq_of_dot_eq_one q (emb (cs.get ⟨i0, hi0⟩))
      (hdim _ (List.get_mem cs i0 hi0)).symm hqq
      (hunit _ (List.get_mem cs i0 hi0)) hdot1).symm
  -- assemble the result list
  obtain ⟨k', rfl⟩ : ∃ k', k = k' + 1 := ⟨k - 1, by omega⟩
  have hresults : faissSearch (cs.map emb) q (k' + 1) =
      s0 :: (srest.take k' ++
        List.replicate (k' + 1 - (cs.map emb).length) ((-1 : Int), (⊥ : WithBot ℚ))) := by
    rw [faissSearch]
    rw [← hscored, ← hsorteddef, hs0, List.take_succ_cons, List.cons_append]
  have hf2s0 : (pyGet cs s0.1).map (fun c => (c, s0.2)) =
      some (t, ((1 : ℚ) : WithBot ℚ)) := by
    have h1 : s0.1 = (i0 : Int) := by rw [hs0eq]
    rw [h1, pyGet_ofNat cs i0 hi0, Option.map_some', hctext, hs0_score]
  have hrest_some : ∃ out,
      (srest.take k' ++
        List.replicate (k' + 1 - (cs.map emb).length)
          ((-1 : Int), (⊥ : WithBot ℚ))).mapM
        (fun p => (pyGet cs p.1).map (fun c => (c, p.2))) = some out := by
    apply mapM_isSome_of_forall
    intro a haa
    rcases List.mem_append.mp haa with h | h
    · have h1 : a ∈ sorted := by
        rw [hs0]
        exact List.mem_cons_of_mem _ (List.mem_of_mem_take h)
      rw [hsorteddef] at h1
      have hsc : a ∈ scored := (List.mem_insertionSort resLE).mp h1
      obtain ⟨i, hi, rfl⟩ := (mem_scored_iff cs emb q a).mp hsc
      show ((pyGet cs (i : Int)).map _).isSome
      rw [pyGet_ofNat cs i hi]
      rfl
    · have ha' := List.eq_of_mem_replicate h
      subst ha'
      show ((pyGet cs (-1)).map _).isSome
      rw [Option.isSome_map']
      exact pyGet_neg_one_isSome cs hccs_ne
  obtain ⟨out, hout⟩ := hrest_some
  refine ⟨out, ?_⟩
  show (faissSearch (cs.map emb) q (k' + 1)).mapM
    (fun p => (pyGet cs p.1).map (fun c => (c, p.2))) = _
  rw [hresults]
  exact mapM_cons_some _ _ _ _ _ hf2s0 hout

/-- Witness for `corpus_self_query_top` at a concrete corpus: one
document with one page reading `"ab"`, a constant unit embedding, and
the corpus's own single chunk text as the query. -/
theorem corpus_self_query_top_witness :
    build_index (fun _ => ([1] : List ℚ)) [[['a', 'b']]] = (some [[1]], [['a', 'b']]) ∧
      (['a', 'b'] ∈ [['a', 'b']]) ∧
      ∃ rest, retrieve (some [[1]]) [['a', 'b']] [1] 5 =
        some ((['a', 'b'], ((1 : ℚ) : WithBot ℚ)) :: rest) := by
  have hb : build_index (fun _ => ([1] : List ℚ)) [[['a', 'b']]] =
      (some [[1]], [['a', 'b']]) := by decide
  refine ⟨hb, by decide, ?_⟩
  exact corpus_self_query_top (fun _ => [1]) [[['a', 'b']]] [[1]] [['a', 'b']]
    ['a', 'b'] 5 hb (by decide) (by intro c _; simp [dot]) (by intro c _; rfl)
    (by intro c hc _; simpa using hc) (by omega)
